import Mathlib

/-!
# mapcrafter: the multi-threaded tile dispatcher

A shallow embedding of `src/thread/impl/multithreading.cpp`: the
`ThreadManager` (two work lanes, one result lane, a finished flag), the
`ThreadWorker` loop and `MultiThreadingDispatcher::dispatch`.

Every `ThreadManager` method runs under the manager's mutex, so each call is
one atomic transition.  A call that would sleep on a condition variable is a
transition that is not enabled (`Take.wait`); the caller retries it later.
-/

namespace mapcrafter

/-! ## Tile paths and the tile set -/

/-- Modelled from the spec: `renderer::TilePath` is declared outside the given
sources.  A tile path is the sequence of child digits (1..4) leading from the
root to the tile; the empty sequence `TilePath()` is the root. -/
abbrev TilePath := List Nat

/-- Modelled from the spec: `TilePath::parent()` removes the last digit
(`dispatch` never calls it on the root). -/
def TilePath.parent (p : TilePath) : TilePath := p.dropLast

/-- Modelled from the spec: `TilePath::operator+(int)` appends a child digit. -/
def TilePath.add (p : TilePath) (i : Nat) : TilePath := p ++ [i]

/-- Modelled from the spec: `TilePath::getDepth()` is the number of digits
(an `int` in the source). -/
def TilePath.getDepth (p : TilePath) : Int := (p.length : Int)

/-- The queries of `renderer::TileSet` that `dispatch` and the worker call.
The class is declared outside the given sources, so the queries are parameters
of the development.  `getRequiredCompositeTiles` is a `std::set`, given here
as the list of its elements in iteration order. -/
structure TileSet where
  getDepth : Int
  getRequiredCompositeTiles : List TilePath
  isTileRequired : TilePath → Bool
  hasTile : TilePath → Bool
  getContainingRenderTiles : TilePath → Int

/-- The work item `renderer::RenderWork`: the two `std::set<TilePath>` fields
the source reads and writes, as lists in iteration order. -/
structure RenderWork where
  tiles : List TilePath
  tiles_skip : List TilePath
deriving DecidableEq

/-- The result `renderer::RenderWorkResult` as the worker fills it in. -/
structure RenderWorkResult where
  tiles : List TilePath
  tiles_skip : List TilePath
  tiles_rendered : Int
deriving DecidableEq

/-! ## ThreadManager -/

/-- The state a `ThreadManager` guards with its mutex.  A queue is the list of
its items, front first: `push` appends at the back, `pop` removes the head. -/
structure ThreadManager where
  work_queue : List RenderWork
  work_extra_queue : List RenderWork
  result_queue : List RenderWorkResult
  finished : Bool
deriving DecidableEq

/-- The constructor `ThreadManager::ThreadManager()`: `finished(false)`, empty queues. -/
def ThreadManager.init : ThreadManager :=
  { work_queue := [], work_extra_queue := [], result_queue := [], finished := false }

/-- The method `ThreadManager::addWork`. -/
def ThreadManager.addWork (m : ThreadManager) (work : RenderWork) : ThreadManager :=
  { m with work_queue := m.work_queue ++ [work] }

/-- The method `ThreadManager::addExtraWork`. -/
def ThreadManager.addExtraWork (m : ThreadManager) (work : RenderWork) : ThreadManager :=
  { m with work_extra_queue := m.work_extra_queue ++ [work] }

/-- The method `ThreadManager::setFinished`. -/
def ThreadManager.setFinished (m : ThreadManager) : ThreadManager :=
  { m with finished := true }

/-- Outcome of a blocking take: `wait` (the call sleeps on its condition
variable), `closed` (the call returns `false`), or `item a m` (the call
returns `true`, the out-parameter holds `a`, the manager is now `m`). -/
inductive Take (α : Type) where
  | wait : Take α
  | closed : Take α
  | item (a : α) (m : ThreadManager) : Take α
deriving DecidableEq

/-- The method `ThreadManager::getWork`; `work` is the caller's variable
passed by reference, left untouched when neither queue is popped. -/
def ThreadManager.getWork (m : ThreadManager) (work : RenderWork) : Take RenderWork :=
  if !m.finished && (m.work_queue.isEmpty && m.work_extra_queue.isEmpty) then Take.wait
  else if m.finished then Take.closed
  else
    match m.work_extra_queue with
    | w :: rest => Take.item w { m with work_extra_queue := rest }
    | [] =>
      match m.work_queue with
      | w :: rest => Take.item w { m with work_queue := rest }
      | [] => Take.item work m

/-- The method `ThreadManager::workFinished`: both branches push the result
(they differ only in the notification). -/
def ThreadManager.workFinished (m : ThreadManager) (_work : RenderWork)
    (result : RenderWorkResult) : ThreadManager :=
  if !m.result_queue.isEmpty then { m with result_queue := m.result_queue ++ [result] }
  else { m with result_queue := m.result_queue ++ [result] }

/-- The method `ThreadManager::getResult`.  The last case (pop of an empty
queue) lies behind the wait loop and is never reached. -/
def ThreadManager.getResult (m : ThreadManager) : Take RenderWorkResult :=
  if !m.finished && m.result_queue.isEmpty then Take.wait
  else if m.finished then Take.closed
  else
    match m.result_queue with
    | r :: rest => Take.item r { m with result_queue := rest }
    | [] => Take.wait

/-! ## ThreadWorker -/

/-- The result a worker builds for a finished work item (the body of the loop
in `ThreadWorker::operator()` after rendering). -/
def workerResult (ts : TileSet) (work : RenderWork) : RenderWorkResult :=
  { tiles := work.tiles
    tiles_skip := work.tiles_skip
    tiles_rendered :=
      work.tiles_skip.foldl (fun acc t => acc - ts.getContainingRenderTiles t)
        (work.tiles.foldl (fun acc t => acc + ts.getContainingRenderTiles t) 0) }

/-- Where a worker thread stands: at the loop head with its variable `work`
(about to call `getWork`), rendering `work` (about to call `workFinished`), or
returned from `operator()`. -/
inductive WorkerState where
  | idle (work : RenderWork) : WorkerState
  | busy (work : RenderWork) : WorkerState
  | exited : WorkerState
deriving DecidableEq

/-! ## MultiThreadingDispatcher::dispatch -/

/-- The seeding loop of `dispatch`: one `addWork` for every tile of
`getRequiredCompositeTiles()` whose depth equals `getDepth() - 2` (the counter
`jobs` is only printed). -/
def seedWork (ts : TileSet) (m : ThreadManager) : ThreadManager :=
  ts.getRequiredCompositeTiles.foldl
    (fun acc t =>
      if TilePath.getDepth t == ts.getDepth - 2 then
        acc.addWork { tiles := [t], tiles_skip := [] }
      else acc)
    m

/-- The tiles the seeding loop submits, in order. -/
def seedTiles (ts : TileSet) : List TilePath :=
  ts.getRequiredCompositeTiles.filter (fun t => TilePath.getDepth t == ts.getDepth - 2)

/-- Insertion into the `std::set` `rendered_tiles`. -/
def setInsert (t : TilePath) (s : List TilePath) : List TilePath :=
  if t ∈ s then s else s ++ [t]

/-- The flag `childs_rendered` after the loop over `i = 1..4`: it stays true
iff no child is both required and missing from `rendered_tiles`. -/
def childs_rendered (ts : TileSet) (rendered : List TilePath) (parent : TilePath) : Bool :=
  [1, 2, 3, 4].all fun i =>
    !(ts.isTileRequired (TilePath.add parent i) && !decide (TilePath.add parent i ∈ rendered))

/-- The work item `dispatch` builds for a ready parent. -/
def compositeWork (ts : TileSet) (parent : TilePath) : RenderWork :=
  { tiles := [parent]
    tiles_skip :=
      ([1, 2, 3, 4].filter fun i => ts.hasTile (TilePath.add parent i)).map (TilePath.add parent) }

/-- The system of one dispatcher thread and its worker threads.  `pending` is
the part of `result.tiles` the inner loop of `dispatch` has not visited yet,
`joined` says that the result loop has ended.  `submitted` and `consumed` are
history: every item passed to `addWork`/`addExtraWork` and every result
returned by `getResult`, in order; no transition reads them. -/
structure System where
  manager : ThreadManager
  workers : List WorkerState
  rendered_tiles : List TilePath
  progress : Int
  pending : List TilePath
  joined : Bool
  submitted : List RenderWork
  consumed : List RenderWorkResult
deriving DecidableEq

/-- The state of `dispatch` once the seeding loop has run and `thread_count`
workers have been started. -/
def dispatchInit (ts : TileSet) (thread_count : Nat) : System :=
  { manager := seedWork ts ThreadManager.init
    workers := List.replicate thread_count (WorkerState.idle { tiles := [], tiles_skip := [] })
    rendered_tiles := []
    progress := 0
    pending := []
    joined := false
    submitted := (seedTiles ts).map fun t => { tiles := [t], tiles_skip := [] }
    consumed := [] }

/-- One pass of the inner loop of `dispatch` for the tile `t` of the current result. -/
def processTile (ts : TileSet) (s : System) (t : TilePath) : System :=
  let rendered := setInsert t s.rendered_tiles
  if t = [] then
    { s with rendered_tiles := rendered, manager := s.manager.setFinished }
  else
    let parent := TilePath.parent t
    if childs_rendered ts rendered parent then
      { s with
        rendered_tiles := rendered
        manager := s.manager.addExtraWork (compositeWork ts parent)
        submitted := s.submitted ++ [compositeWork ts parent] }
    else
      { s with rendered_tiles := rendered }

/-- The atomic moves of the system: worker `i` calls `getWork`, worker `i`
calls `workFinished`, the dispatcher calls `getResult`, the dispatcher runs
one pass of its inner loop.  A pass calls the manager at most once
(`setFinished` or `addExtraWork`) and otherwise touches only `rendered_tiles`,
which no worker reads, so taking the pass as one move loses no interleaving. -/
inductive Action where
  | getWork (i : Nat) : Action
  | workFinished (i : Nat) : Action
  | getResult : Action
  | tile : Action
deriving DecidableEq

/-- The effect of one move, `none` when the move is not enabled (the thread is
elsewhere in its code, or the call sleeps). -/
def step (ts : TileSet) (s : System) : Action → Option System
  | Action.getWork i =>
    match s.workers[i]? with
    | some (WorkerState.idle work) =>
      match s.manager.getWork work with
      | Take.wait => none
      | Take.closed => some { s with workers := s.workers.set i WorkerState.exited }
      | Take.item w m => some { s with manager := m, workers := s.workers.set i (WorkerState.busy w) }
    | _ => none
  | Action.workFinished i =>
    match s.workers[i]? with
    | some (WorkerState.busy work) =>
      some { s with
        manager := s.manager.workFinished work (workerResult ts work)
        workers := s.workers.set i (WorkerState.idle work) }
    | _ => none
  | Action.getResult =>
    if s.joined || !s.pending.isEmpty then none
    else
      match s.manager.getResult with
      | Take.wait => none
      | Take.closed => some { s with joined := true }
      | Take.item r m =>
        some { s with
          manager := m
          progress := s.progress + r.tiles_rendered
          pending := r.tiles
          consumed := s.consumed ++ [r] }
  | Action.tile =>
    match s.pending with
    | [] => none
    | t :: rest => some (processTile ts { s with pending := rest } t)

/-- The state after a sequence of moves, `none` if one of them is not enabled. -/
def run (ts : TileSet) (s : System) : List Action → Option System
  | [] => some s
  | a :: as => (step ts s a).bind fun s' => run ts s' as

/-- States of a run of `dispatch` with `thread_count` workers. -/
inductive Reachable (ts : TileSet) (thread_count : Nat) : System → Prop where
  | init : Reachable ts thread_count (dispatchInit ts thread_count)
  | step {s s' : System} (a : Action) :
      Reachable ts thread_count s → step ts s a = some s' → Reachable ts thread_count s'

/-! ## Observations on states -/

/-- All tiles named by the `tiles` sets of a list of work items. -/
def workTiles : List RenderWork → List TilePath
  | [] => []
  | w :: ws => w.tiles ++ workTiles ws

/-- All tiles named by the `tiles` sets of a list of results. -/
def resultTiles : List RenderWorkResult → List TilePath
  | [] => []
  | r :: rs => r.tiles ++ resultTiles rs

/-- The tiles of the work item a worker has taken and not yet reported. -/
def WorkerState.held : WorkerState → List TilePath
  | WorkerState.busy w => w.tiles
  | _ => []

/-- The tiles of all work items taken by some worker and not yet reported. -/
def heldTiles : List WorkerState → List TilePath
  | [] => []
  | w :: ws => w.held ++ heldTiles ws

/-- The assumptions on the tile tree: the seeded tiles are pairwise distinct
and required, the parent of a required tile is required, and the digits of a
required tile are child digits (1..4). -/
structure TileTree (ts : TileSet) : Prop where
  seeds_nodup : (seedTiles ts).Nodup
  seeds_required : ∀ t ∈ seedTiles ts, ts.isTileRequired t = true
  parent_closed : ∀ t, t ≠ [] → ts.isTileRequired t = true →
    ts.isTileRequired (TilePath.parent t) = true
  digits : ∀ t, ts.isTileRequired t = true → ∀ d ∈ t, 1 ≤ d ∧ d ≤ 4

/-- The invariant of the runs of `dispatch` over a tile tree.  Every tile ever
submitted is accounted for exactly once: it sits in a work lane, is held by a
worker, sits in the result lane, is pending in the inner loop, or is in
`rendered_tiles`. -/
structure Inv (ts : TileSet) (s : System) : Prop where
  count_eq : ∀ t, (workTiles s.submitted).count t =
    (workTiles s.manager.work_queue).count t + (workTiles s.manager.work_extra_queue).count t +
      (heldTiles s.workers).count t + (resultTiles s.manager.result_queue).count t +
      s.pending.count t + s.rendered_tiles.count t
  nodup : ∀ t, (workTiles s.submitted).count t ≤ 1
  consumed_eq : ∀ t, (resultTiles s.consumed).count t =
    s.pending.count t + s.rendered_tiles.count t
  required : ∀ t ∈ workTiles s.submitted,
    ts.isTileRequired t = true ∧ TilePath.getDepth t ≤ ts.getDepth - 2
  ready : ∀ p ∈ workTiles s.submitted, TilePath.getDepth p < ts.getDepth - 2 →
    childs_rendered ts s.rendered_tiles p = true
  single_work : ∀ w ∈ s.manager.work_queue, ∃ t, w.tiles = [t]
  single_extra : ∀ w ∈ s.manager.work_extra_queue, ∃ t, w.tiles = [t]
  single_held : ∀ w, WorkerState.busy w ∈ s.workers → ∃ t, w.tiles = [t]
  single_result : ∀ r ∈ s.manager.result_queue, ∃ t, r.tiles = [t]
  single_pending : s.pending.length ≤ 1
  single_consumed : ∀ r ∈ s.consumed, ∃ t, r.tiles = [t]
  single_submitted : ∀ w ∈ s.submitted, ∃ t, w.tiles = [t]
  finished_root : s.manager.finished = true → [] ∈ s.rendered_tiles
  drained : s.manager.finished = true →
    s.manager.work_queue = [] ∧ s.manager.work_extra_queue = [] ∧
      s.manager.result_queue = [] ∧ (∀ w, WorkerState.busy w ∉ s.workers) ∧ s.pending = []
  joined_finished : s.joined = true → s.manager.finished = true

/-! ## Example tile sets -/

/-- A tile set of the given depth whose required composite tiles are exactly
`tiles`; every listed tile exists, and each tile counts as one render tile. -/
def TileSet.ofRequired (depth : Int) (tiles : List TilePath) : TileSet :=
  { getDepth := depth
    getRequiredCompositeTiles := tiles
    isTileRequired := fun t => decide (t ∈ tiles)
    hasTile := fun t => decide (t ∈ tiles)
    getContainingRenderTiles := fun _ => 1 }

/-- The tree of the spec's example read with `getDepth() = 2`: the tiles 1-1,
1-2 and 2-1 at depth 2, their parents 1 and 2, and the root. -/
def exampleDepth2 : TileSet :=
  TileSet.ofRequired 2 [[], [1], [1, 1], [1, 2], [2], [2, 1]]

/-- The same tree two levels higher up in a tile set with `getDepth() = 4`. -/
def exampleDepth4 : TileSet :=
  TileSet.ofRequired 4 [[], [1], [1, 1], [1, 2], [2], [2, 1]]

/-- A tile set with `getDepth() = 3` whose required composite tiles are the
root, tile 1 and tile 1-1. -/
def exampleDepth3 : TileSet :=
  TileSet.ofRequired 3 [[], [1], [1, 1]]

/-- A tile set with `getDepth() = 1`: the root is its only composite tile. -/
def exampleDepth1 : TileSet :=
  TileSet.ofRequired 1 [[]]

/-- The state reached from the start of `dispatch` by the given moves (the
start state itself if some move is not enabled). -/
def runFrom (ts : TileSet) (thread_count : Nat) (acts : List Action) : System :=
  (run ts (dispatchInit ts thread_count) acts).getD (dispatchInit ts thread_count)

/-- One worker serves `exampleDepth3`: tile 1 is taken, reported, consumed and
processed (the root becomes ready), then the same for the root. -/
def exampleRun3 : List Action :=
  [Action.getWork 0, Action.workFinished 0, Action.getResult, Action.tile,
   Action.getWork 0, Action.workFinished 0, Action.getResult, Action.tile]

/-- Two workers serve `exampleDepth4`: worker 0 takes 1-1 and worker 1 takes
1-2, the result of 1-2 arrives first; tile 1 is composed by worker 1 before
worker 0 starts 2-1; the root comes last. -/
def exampleRun4 : List Action :=
  [Action.getWork 0, Action.getWork 1, Action.workFinished 1, Action.workFinished 0,
   Action.getResult, Action.tile, Action.getResult, Action.tile,
   Action.getWork 1, Action.getWork 0, Action.workFinished 1, Action.getResult, Action.tile,
   Action.workFinished 0, Action.getResult, Action.tile,
   Action.getWork 0, Action.workFinished 0, Action.getResult, Action.tile,
   Action.getWork 1, Action.workFinished 1, Action.getResult, Action.tile,
   Action.getWork 0, Action.getWork 1, Action.getResult]

/-! ## mapcrafter_markers: findMarkers

The marker tool `src/mapcrafter_markers.cpp`.  The configuration, world and
entity classes it calls are declared outside the given sources; what
`findMarkers` reads from them is taken as data and as parameters. -/

/-- The position `mc::BlockPos` of a block. -/
structure BlockPos where
  x : Int
  z : Int
  y : Int
deriving DecidableEq

/-- The sign `mc::SignEntity`: its position (`getPos()`) and its text. -/
structure SignEntity where
  getPos : BlockPos
  getText : String
deriving DecidableEq

/-- The two containment tests of `mc::WorldCrop` that `findMarkers` calls. -/
structure WorldCrop where
  isBlockContainedXZ : BlockPos → Bool
  isBlockContainedY : BlockPos → Bool

/-- The queries of `config::MarkerSection` that `findMarkers` calls. -/
structure MarkerSection where
  getShortName : String
  matchesSign : SignEntity → Bool
  formatTitle : SignEntity → String
  formatText : SignEntity → String

/-- What `findMarkers` reads for one world section: its short name, its crop,
the outcome of `world.load()` and the vector returned by
`entities.getSigns(world.getWorldCrop())`. -/
structure WorldSection where
  getShortName : String
  getWorldCrop : WorldCrop
  load : Bool
  getSigns : List SignEntity

/-- The part of `config::MapcrafterConfig` that `findMarkers` reads:
`getMarkers()` and `getWorlds()` (a map from section name to world section, as
the list of its entries in iteration order). -/
structure MapcrafterConfig where
  getMarkers : List MarkerSection
  getWorlds : List (String × WorldSection)

/-- The record `Marker` of the marker tool. -/
structure Marker where
  pos : BlockPos
  title : String
  text : String
deriving DecidableEq

/-- The type `MarkerGroup`: world name to the markers found there.  A
`std::map` is given as the list of its entries; lookups go by key. -/
abbrev MarkerGroup := List (String × List Marker)

/-- The type `Markers`: marker group name to `MarkerGroup`. -/
abbrev Markers := List (String × MarkerGroup)

/-- The access `m[k]` of a `std::map` followed by an update of the value: the
entry is created with the default value when the key is new. -/
def mapModify {V : Type} (dflt : V) (f : V → V) (k : String) :
    List (String × V) → List (String × V)
  | [] => [(k, f dflt)]
  | (k', v) :: rest =>
    if k' = k then (k', f v) :: rest else (k', v) :: mapModify dflt f k rest

/-- The value stored under a key, the default when the key is absent. -/
def mapFind {V : Type} (dflt : V) (k : String) : List (String × V) → V
  | [] => dflt
  | (k', v) :: rest => if k' = k then v else mapFind dflt k rest

/-- The markers recorded for a world in a marker group. -/
def markersOf (markers : Markers) (group world_name : String) : List Marker :=
  mapFind [] world_name (mapFind [] group markers)

/-- The loop over the marker sections for one sign: the first section that
matches the sign receives one marker, then the loop breaks. -/
def addSignMarker (config_markers : List MarkerSection) (world_name : String)
    (sign : SignEntity) (markers : Markers) : Markers :=
  match config_markers with
  | [] => markers
  | marker_it :: rest =>
    if !marker_it.matchesSign sign then addSignMarker rest world_name sign markers
    else
      mapModify []
        (mapModify []
          (fun v => v ++
            [{ pos := sign.getPos
               title := marker_it.formatTitle sign
               text := marker_it.formatText sign }])
          world_name)
        marker_it.getShortName markers

/-- The body of the loop over the signs of a world: the boundary test with its
`continue`, then the loop over the marker sections. -/
def findSignMarkers (world_crop : WorldCrop) (config_markers : List MarkerSection)
    (world_name : String) (markers : Markers) (sign : SignEntity) : Markers :=
  if !world_crop.isBlockContainedXZ sign.getPos && !world_crop.isBlockContainedY sign.getPos then
    markers
  else addSignMarker config_markers world_name sign markers

/-- The function `findMarkers`: an empty group for every marker section, then
for every world that loads, the loop over its signs. -/
def findMarkers (config : MapcrafterConfig) : Markers :=
  let markers := config.getMarkers.foldl
    (fun acc group_it => mapModify [] id group_it.getShortName acc) []
  config.getWorlds.foldl
    (fun acc world_it =>
      if !world_it.2.load then acc
      else
        world_it.2.getSigns.foldl
          (findSignMarkers world_it.2.getWorldCrop config.getMarkers world_it.2.getShortName)
          acc)
    markers

/-- A crop of the kind a world section configures: x and z within -100..100,
y within 0..64. -/
def exampleCrop : WorldCrop :=
  { isBlockContainedXZ := fun p =>
      decide (-100 ≤ p.x) && decide (p.x ≤ 100) && decide (-100 ≤ p.z) && decide (p.z ≤ 100)
    isBlockContainedY := fun p => decide (0 ≤ p.y) && decide (p.y ≤ 64) }

/-- A marker section that matches every sign and shows its text. -/
def exampleSection : MarkerSection :=
  { getShortName := "homes"
    matchesSign := fun _ => true
    formatTitle := fun sign => sign.getText
    formatText := fun sign => sign.getText }

/-- A configuration with one marker section and one world, cropped by
`exampleCrop`, whose signs are the given ones. -/
def exampleConfig (signs : List SignEntity) : MapcrafterConfig :=
  { getMarkers := [exampleSection]
    getWorlds :=
      [("world", { getShortName := "world", getWorldCrop := exampleCrop,
                   load := true, getSigns := signs })] }

/-- A sign inside the horizontal bounds of `exampleCrop` but above its
vertical bounds (y = 200). -/
def signAbove : SignEntity :=
  { getPos := { x := 0, z := 0, y := 200 }, getText := "sky base" }

/-- A sign inside the vertical bounds of `exampleCrop` but outside its
horizontal bounds (x = 5000). -/
def signFarAway : SignEntity :=
  { getPos := { x := 5000, z := 0, y := 10 }, getText := "outpost" }

/-- A sign outside both the horizontal and the vertical bounds. -/
def signOutside : SignEntity :=
  { getPos := { x := 5000, z := 0, y := 200 }, getText := "nowhere" }

end mapcrafter

namespace mapcrafter

/-! ## ThreadManager: the take operations -/

/-- C6: in a state that is not finished and whose extra queue is non-empty,
`getWork` returns the front item of the extra queue, removes exactly that item
and leaves the normal queue (and everything else) unchanged; and whenever
`getWork` returns an item and the normal queue has changed, the extra queue
was empty. -/
theorem getWork_prefers_extra (m : ThreadManager) (work : RenderWork) :
    (∀ w rest, m.finished = false → m.work_extra_queue = w :: rest →
      m.getWork work = Take.item w { m with work_extra_queue := rest }) ∧
    (∀ w m', m.getWork work = Take.item w m' → m'.work_queue ≠ m.work_queue →
      m.work_extra_queue = []) := by
  refine ⟨?_, ?_⟩
  · intro w rest hf he
    simp [ThreadManager.getWork, hf, he]
  · intro w m' h hne
    cases he : m.work_extra_queue with
    | nil => rfl
    | cons x xs =>
      exfalso
      cases hf : m.finished <;> simp [ThreadManager.getWork, hf, he] at h
      apply hne
      rw [← h.2]

/-- C6, at a concrete state: with one item in each lane the extra item is
returned and the normal lane keeps its item. -/
theorem getWork_prefers_extra_witness :
    ({ work_queue := [⟨[[1, 1]], []⟩], work_extra_queue := [⟨[[2]], []⟩],
       result_queue := [], finished := false } : ThreadManager).getWork ⟨[], []⟩ =
      Take.item ⟨[[2]], []⟩
        { work_queue := [⟨[[1, 1]], []⟩], work_extra_queue := [],
          result_queue := [], finished := false } :=
  (getWork_prefers_extra _ _).1 _ _ rfl rfl

/-- C7 (refuted as stated): a finished manager whose normal lane still holds
an item answers `getWork` with `closed`, not with the item. -/
theorem getWork_finished_pending_counterexample :
    ({ work_queue := [⟨[[1, 1]], []⟩], work_extra_queue := [],
       result_queue := [], finished := true } : ThreadManager).getWork ⟨[], []⟩ =
      Take.closed := by
  decide

/-- C7 (amended): once the finished flag is set `getWork` returns `closed`
whatever the lanes hold; while it is not set, `getWork` never returns `closed`,
and it returns an item exactly when one of the lanes is non-empty. -/
theorem getWork_closed_iff_finished (m : ThreadManager) (work : RenderWork) :
    (m.getWork work = Take.closed ↔ m.finished = true) ∧
    (m.finished = false →
      ((∃ w m', m.getWork work = Take.item w m') ↔
        (m.work_queue ≠ [] ∨ m.work_extra_queue ≠ []))) := by
  refine ⟨?_, ?_⟩
  · cases hf : m.finished <;> cases hq : m.work_queue <;> cases he : m.work_extra_queue <;>
      simp [ThreadManager.getWork, hf, hq, he]
  · intro hf
    cases hq : m.work_queue <;> cases he : m.work_extra_queue <;>
      simp [ThreadManager.getWork, hf, hq, he]

/-- C7 (amended), at a concrete state that is not finished. -/
theorem getWork_closed_iff_finished_witness :
    (∃ w m', (ThreadManager.mk [⟨[[1, 1]], []⟩] [] [] false).getWork ⟨[], []⟩ =
          Take.item w m') ↔
      (([⟨[[1, 1]], []⟩] : List RenderWork) ≠ [] ∨ ([] : List RenderWork) ≠ []) :=
  (getWork_closed_iff_finished _ _).2 rfl

end mapcrafter

namespace mapcrafter

/-! ## Seeding -/

theorem seedWork_foldl (d : Int) (l : List TilePath) (m : ThreadManager) :
    l.foldl
      (fun acc t =>
        if TilePath.getDepth t == d then
          acc.addWork { tiles := [t], tiles_skip := [] }
        else acc) m =
    { m with
      work_queue := m.work_queue ++
        (l.filter fun t => TilePath.getDepth t == d).map
          fun t => ({ tiles := [t], tiles_skip := [] } : RenderWork) } := by
  induction l generalizing m with
  | nil => simp
  | cons t l ih =>
    simp only [List.foldl_cons]
    rw [ih]
    by_cases h : (TilePath.getDepth t == d) = true
    · simp [h, ThreadManager.addWork, List.filter_cons]
    · simp [h, List.filter_cons]

theorem seedWork_init (ts : TileSet) :
    seedWork ts ThreadManager.init =
      { work_queue := (seedTiles ts).map fun t => { tiles := [t], tiles_skip := [] }
        work_extra_queue := []
        result_queue := []
        finished := false } := by
  unfold seedWork
  rw [seedWork_foldl]
  simp [ThreadManager.init, seedTiles]

/-- C4 (refuted as stated): for the tile set of depth 2 whose required tiles at
the maximum depth are 1-1, 1-2 and 2-1, seeding submits a single work item, for
the root, instead of three items for the three tiles of maximum depth. -/
theorem seeding_depth2_counterexample :
    (seedWork exampleDepth2 ThreadManager.init).work_queue = [⟨[[]], []⟩] ∧
    (seedWork exampleDepth2 ThreadManager.init).work_queue.length ≠ 3 := by
  decide

/-- C4 (amended): for a tile set with `getDepth() ≥ 2`, seeding submits to the
normal lane exactly one work item per tile of `getRequiredCompositeTiles()`
whose depth is `getDepth() - 2`, each with `tiles = {tile}` and empty
`tiles_skip`, and nothing else (the extra lane and the result lane stay empty,
the finished flag stays unset).  For the tile set of depth 4 whose required
tiles at depth 2 are 1-1, 1-2 and 2-1 this gives exactly three work items, and
for the tile set of depth 2 exactly one item whose tile is the root. -/
theorem seeding_submits_depth_minus_two (ts : TileSet) (_h : 2 ≤ ts.getDepth) :
    seedWork ts ThreadManager.init =
        { work_queue :=
            (ts.getRequiredCompositeTiles.filter
              fun t => TilePath.getDepth t == ts.getDepth - 2).map
              fun t => { tiles := [t], tiles_skip := [] }
          work_extra_queue := []
          result_queue := []
          finished := false } ∧
    (seedWork exampleDepth4 ThreadManager.init).work_queue =
        [⟨[[1, 1]], []⟩, ⟨[[1, 2]], []⟩, ⟨[[2, 1]], []⟩] ∧
    (seedWork exampleDepth2 ThreadManager.init).work_queue = [⟨[[]], []⟩] := by
  refine ⟨?_, ?_, ?_⟩
  · exact seedWork_init ts
  · decide
  · decide

/-- C4 (amended), at the tile set of depth 4 of the example. -/
theorem seeding_submits_depth_minus_two_witness :
    seedWork exampleDepth4 ThreadManager.init =
        { work_queue :=
            (exampleDepth4.getRequiredCompositeTiles.filter
              fun t => TilePath.getDepth t == exampleDepth4.getDepth - 2).map
              fun t => { tiles := [t], tiles_skip := [] }
          work_extra_queue := []
          result_queue := []
          finished := false } ∧
    (seedWork exampleDepth4 ThreadManager.init).work_queue =
        [⟨[[1, 1]], []⟩, ⟨[[1, 2]], []⟩, ⟨[[2, 1]], []⟩] ∧
    (seedWork exampleDepth2 ThreadManager.init).work_queue = [⟨[[]], []⟩] :=
  seeding_submits_depth_minus_two exampleDepth4 (by decide)

/-! ## The inner loop of the dispatcher -/

theorem childs_rendered_iff (ts : TileSet) (rendered : List TilePath) (p : TilePath) :
    childs_rendered ts rendered p = true ↔
      ∀ i ∈ [1, 2, 3, 4],
        ts.isTileRequired (TilePath.add p i) = false ∨ TilePath.add p i ∈ rendered := by
  unfold childs_rendered
  rw [List.all_eq_true]
  constructor
  · intro h i hi
    have := h i hi
    cases hr : ts.isTileRequired (TilePath.add p i) <;> simp [hr] at this ⊢
    exact this
  · intro h i hi
    rcases h i hi with h1 | h1 <;> simp [h1]

theorem mem_setInsert (t u : TilePath) (s : List TilePath) :
    u ∈ setInsert t s ↔ u = t ∨ u ∈ s := by
  unfold setInsert
  by_cases h : t ∈ s
  · simp only [h, if_true]
    constructor
    · intro hu; exact Or.inr hu
    · rintro (rfl | hu)
      · exact h
      · exact hu
  · simp only [h, if_false, List.mem_append, List.mem_singleton]
    tauto

theorem childs_rendered_mono (ts : TileSet) (r r' : List TilePath) (p : TilePath)
    (hsub : ∀ u ∈ r, u ∈ r') (h : childs_rendered ts r p = true) :
    childs_rendered ts r' p = true := by
  rw [childs_rendered_iff] at h ⊢
  intro i hi
  rcases h i hi with h1 | h1
  · exact Or.inl h1
  · exact Or.inr (hsub _ h1)

theorem processTile_root (ts : TileSet) (s : System) :
    processTile ts s [] =
      { s with
        rendered_tiles := setInsert [] s.rendered_tiles
        manager := s.manager.setFinished } := by
  simp [processTile]

theorem processTile_ready (ts : TileSet) (s : System) (t : TilePath) (ht : t ≠ [])
    (h : childs_rendered ts (setInsert t s.rendered_tiles) (TilePath.parent t) = true) :
    processTile ts s t =
      { s with
        rendered_tiles := setInsert t s.rendered_tiles
        manager := s.manager.addExtraWork (compositeWork ts (TilePath.parent t))
        submitted := s.submitted ++ [compositeWork ts (TilePath.parent t)] } := by
  simp [processTile, ht, h]

theorem processTile_not_ready (ts : TileSet) (s : System) (t : TilePath) (ht : t ≠ [])
    (h : childs_rendered ts (setInsert t s.rendered_tiles) (TilePath.parent t) = false) :
    processTile ts s t = { s with rendered_tiles := setInsert t s.rendered_tiles } := by
  simp [processTile, ht, h]

end mapcrafter

namespace mapcrafter

/-! ## Counting tiles -/

theorem workTiles_append (a b : List RenderWork) :
    workTiles (a ++ b) = workTiles a ++ workTiles b := by
  induction a with
  | nil => rfl
  | cons w a ih => simp [workTiles, ih]

theorem resultTiles_append (a b : List RenderWorkResult) :
    resultTiles (a ++ b) = resultTiles a ++ resultTiles b := by
  induction a with
  | nil => rfl
  | cons w a ih => simp [resultTiles, ih]

theorem workTiles_seed (l : List TilePath) :
    workTiles (l.map fun t => ({ tiles := [t], tiles_skip := [] } : RenderWork)) = l := by
  induction l with
  | nil => rfl
  | cons t l ih => simp [workTiles, ih]

theorem mem_workTiles (l : List RenderWork) (t : TilePath) :
    t ∈ workTiles l ↔ ∃ w ∈ l, t ∈ w.tiles := by
  induction l with
  | nil => simp [workTiles]
  | cons w l ih => simp [workTiles, ih]

theorem mem_resultTiles (l : List RenderWorkResult) (t : TilePath) :
    t ∈ resultTiles l ↔ ∃ r ∈ l, t ∈ r.tiles := by
  induction l with
  | nil => simp [resultTiles]
  | cons w l ih => simp [resultTiles, ih]

theorem mem_heldTiles (l : List WorkerState) (t : TilePath) :
    t ∈ heldTiles l ↔ ∃ w, WorkerState.busy w ∈ l ∧ t ∈ w.tiles := by
  induction l with
  | nil => simp [heldTiles]
  | cons x l ih =>
    cases x <;> simp [heldTiles, WorkerState.held, ih]

theorem heldTiles_replicate_idle (n : Nat) (w : RenderWork) :
    heldTiles (List.replicate n (WorkerState.idle w)) = [] := by
  induction n with
  | zero => rfl
  | succ n ih => simp [List.replicate_succ, heldTiles, WorkerState.held, ih]

theorem heldTiles_set (ws : List WorkerState) (i : Nat) (old new : WorkerState)
    (h : ws[i]? = some old) (t : TilePath) :
    (heldTiles (ws.set i new)).count t + old.held.count t =
      (heldTiles ws).count t + new.held.count t := by
  induction ws generalizing i with
  | nil => simp at h
  | cons x ws ih =>
    cases i with
    | zero =>
      simp at h
      subst h
      simp [heldTiles, List.count_append]
      omega
    | succ i =>
      simp at h
      have := ih i h
      simp [heldTiles, List.count_append]
      omega

theorem nodup_iff_count_le_one (l : List TilePath) :
    l.Nodup ↔ ∀ t, l.count t ≤ 1 := by
  induction l with
  | nil => simp
  | cons x l ih =>
    rw [List.nodup_cons, ih]
    constructor
    · rintro ⟨hx, hl⟩ t
      rw [List.count_cons]
      by_cases h : x = t
      · subst h
        have : List.count x l = 0 := List.count_eq_zero.mpr hx
        simp [this]
      · have := hl t
        simp [h]
        exact this
    · intro h
      refine ⟨?_, ?_⟩
      · intro hx
        have h1 := h x
        rw [List.count_cons] at h1
        have h2 : 0 < List.count x l := List.count_pos_iff.mpr hx
        simp at h1
        omega
      · intro t
        have h1 := h t
        rw [List.count_cons] at h1
        omega

theorem mem_busy_set (ws : List WorkerState) (i : Nat) (new : WorkerState) (w : RenderWork)
    (h : WorkerState.busy w ∈ ws.set i new) :
    WorkerState.busy w ∈ ws ∨ new = WorkerState.busy w := by
  rcases List.mem_or_eq_of_mem_set h with h1 | h1
  · exact Or.inl h1
  · exact Or.inr h1.symm

end mapcrafter

namespace mapcrafter

/-! ## The shape of each move -/

theorem step_getWork {ts : TileSet} {s s' : System} {i : Nat}
    (h : step ts s (Action.getWork i) = some s') :
    ∃ work, s.workers[i]? = some (WorkerState.idle work) ∧
      ((s.manager.finished = true ∧
          s' = { s with workers := s.workers.set i WorkerState.exited }) ∨
       (s.manager.finished = false ∧ ∃ w rest, s.manager.work_extra_queue = w :: rest ∧
          s' = { s with
            manager := { s.manager with work_extra_queue := rest }
            workers := s.workers.set i (WorkerState.busy w) }) ∨
       (s.manager.finished = false ∧ s.manager.work_extra_queue = [] ∧
          ∃ w rest, s.manager.work_queue = w :: rest ∧
          s' = { s with
            manager := { s.manager with work_queue := rest }
            workers := s.workers.set i (WorkerState.busy w) })) := by
  simp only [step] at h
  split at h
  · rename_i work hw
    refine ⟨work, hw, ?_⟩
    cases hf : s.manager.finished <;> cases he : s.manager.work_extra_queue <;>
      cases hq : s.manager.work_queue <;>
      simp [ThreadManager.getWork, hf, he, hq] at h <;> subst h <;> simp [hf, he, hq] <;>
      exact ⟨_, _, ⟨rfl, rfl⟩, rfl, rfl⟩
  · simp at h

theorem step_workFinished {ts : TileSet} {s s' : System} {i : Nat}
    (h : step ts s (Action.workFinished i) = some s') :
    ∃ work, s.workers[i]? = some (WorkerState.busy work) ∧
      s' = { s with
        manager := { s.manager with
          result_queue := s.manager.result_queue ++ [workerResult ts work] }
        workers := s.workers.set i (WorkerState.idle work) } := by
  simp only [step] at h
  split at h
  · rename_i work hw
    refine ⟨work, hw, ?_⟩
    simp [ThreadManager.workFinished] at h
    simp [← h]
  · simp at h

theorem step_getResult {ts : TileSet} {s s' : System}
    (h : step ts s Action.getResult = some s') :
    s.joined = false ∧ s.pending = [] ∧
      ((s.manager.finished = true ∧ s' = { s with joined := true }) ∨
       (s.manager.finished = false ∧ ∃ r rest, s.manager.result_queue = r :: rest ∧
          s' = { s with
            manager := { s.manager with result_queue := rest }
            progress := s.progress + r.tiles_rendered
            pending := r.tiles
            consumed := s.consumed ++ [r] })) := by
  simp only [step] at h
  split at h
  · simp at h
  · rename_i hc
    simp at hc
    refine ⟨hc.1, hc.2, ?_⟩
    cases hf : s.manager.finished with
    | true =>
      left
      cases hq : s.manager.result_queue <;>
        simp [ThreadManager.getResult, hf, hq] at h <;> subst h <;> simp
    | false =>
      right
      cases hq : s.manager.result_queue with
      | nil => simp [ThreadManager.getResult, hf, hq] at h
      | cons r rest =>
        simp [ThreadManager.getResult, hf, hq] at h
        subst h
        exact ⟨rfl, r, rest, rfl, by simp [hf]⟩

theorem step_tile {ts : TileSet} {s s' : System}
    (h : step ts s Action.tile = some s') :
    ∃ t rest, s.pending = t :: rest ∧ s' = processTile ts { s with pending := rest } t := by
  simp only [step] at h
  split at h
  · simp at h
  · rename_i t rest hp
    exact ⟨t, rest, hp, by simpa using h.symm⟩

end mapcrafter

namespace mapcrafter

/-! ## The invariant holds along every run -/

theorem seedTiles_depth (ts : TileSet) (t : TilePath) (h : t ∈ seedTiles ts) :
    TilePath.getDepth t = ts.getDepth - 2 := by
  unfold seedTiles at h
  rw [List.mem_filter] at h
  simpa using h.2

theorem inv_init (ts : TileSet) (hts : TileTree ts) (n : Nat) : Inv ts (dispatchInit ts n) := by
  constructor
  · intro t
    simp [dispatchInit, seedWork_init, workTiles_seed, heldTiles_replicate_idle, workTiles,
      resultTiles]
  · intro t
    simp only [dispatchInit, workTiles_seed]
    exact (nodup_iff_count_le_one _).mp hts.seeds_nodup t
  · intro t
    simp [dispatchInit, resultTiles]
  · intro t ht
    simp only [dispatchInit, workTiles_seed] at ht
    exact ⟨hts.seeds_required t ht, le_of_eq (seedTiles_depth ts t ht)⟩
  · intro p hp hlt
    simp only [dispatchInit, workTiles_seed] at hp
    have := seedTiles_depth ts p hp
    omega
  · intro w hw
    simp [dispatchInit, seedWork_init] at hw
    obtain ⟨t, _, rfl⟩ := hw
    exact ⟨t, rfl⟩
  · intro w hw
    simp [dispatchInit, seedWork_init] at hw
  · intro w hw
    simp [dispatchInit] at hw
  · intro w hw
    simp [dispatchInit, seedWork_init] at hw
  · simp [dispatchInit]
  · intro w hw
    simp [dispatchInit] at hw
  · intro w hw
    simp [dispatchInit] at hw
    obtain ⟨t, _, rfl⟩ := hw
    exact ⟨t, rfl⟩
  · intro h
    simp [dispatchInit, seedWork_init] at h
  · intro h
    simp [dispatchInit, seedWork_init] at h
  · intro h
    simp [dispatchInit] at h

theorem inv_getWork (ts : TileSet) (s s' : System) (i : Nat) (hinv : Inv ts s)
    (h : step ts s (Action.getWork i) = some s') : Inv ts s' := by
  obtain ⟨work, hw, hcase⟩ := step_getWork h
  rcases hcase with ⟨hf, rfl⟩ | ⟨hf, w, rest, he, rfl⟩ | ⟨hf, he, w, rest, hq, rfl⟩
  · -- the worker leaves its loop
    have hheld := fun t => heldTiles_set s.workers i _ WorkerState.exited hw t
    simp only [WorkerState.held, List.count_nil, add_zero] at hheld
    refine { hinv with
      count_eq := ?_, single_held := ?_, drained := ?_ }
    · intro t
      simpa [hheld t] using hinv.count_eq t
    · intro w hwb
      rcases mem_busy_set _ _ _ _ hwb with h1 | h1
      · exact hinv.single_held w h1
      · cases h1
    · intro hfin
      obtain ⟨h1, h2, h3, h4, h5⟩ := hinv.drained hfin
      refine ⟨h1, h2, h3, ?_, h5⟩
      intro w hwb
      rcases mem_busy_set _ _ _ _ hwb with h6 | h6
      · exact h4 w h6
      · cases h6
  · -- an item of the extra lane is taken
    have hheld := fun t => heldTiles_set s.workers i _ (WorkerState.busy w) hw t
    simp only [WorkerState.held, List.count_nil, add_zero] at hheld
    refine { hinv with
      count_eq := ?_, single_held := ?_, drained := ?_, single_extra := ?_,
      finished_root := ?_ }
    · intro t
      have := hinv.count_eq t
      simp only [he, workTiles, List.count_append] at this
      simp only [hheld t]
      omega
    · intro x hx
      exact hinv.single_extra x (by rw [he]; exact List.mem_cons_of_mem _ hx)
    · intro x hwb
      rcases mem_busy_set _ _ _ _ hwb with h1 | h1
      · exact hinv.single_held x h1
      · cases h1
        exact hinv.single_extra w (by rw [he]; exact List.mem_cons_self _ _)
    · intro hfin
      simp [hf] at hfin
    · intro hfin
      simp [hf] at hfin
  · -- an item of the normal lane is taken
    have hheld := fun t => heldTiles_set s.workers i _ (WorkerState.busy w) hw t
    simp only [WorkerState.held, List.count_nil, add_zero] at hheld
    refine { hinv with
      count_eq := ?_, single_held := ?_, drained := ?_, single_work := ?_,
      finished_root := ?_ }
    · intro t
      have := hinv.count_eq t
      simp only [hq, workTiles, List.count_append] at this
      simp only [hheld t]
      omega
    · intro x hx
      exact hinv.single_work x (by rw [hq]; exact List.mem_cons_of_mem _ hx)
    · intro x hwb
      rcases mem_busy_set _ _ _ _ hwb with h1 | h1
      · exact hinv.single_held x h1
      · cases h1
        exact hinv.single_work w (by rw [hq]; exact List.mem_cons_self _ _)
    · intro hfin
      simp [hf] at hfin
    · intro hfin
      simp [hf] at hfin

end mapcrafter

namespace mapcrafter

theorem inv_workFinished (ts : TileSet) (s s' : System) (i : Nat) (hinv : Inv ts s)
    (h : step ts s (Action.workFinished i) = some s') : Inv ts s' := by
  obtain ⟨work, hw, rfl⟩ := step_workFinished h
  have hbusy : WorkerState.busy work ∈ s.workers := List.getElem?_mem hw
  have hnf : s.manager.finished = false := by
    cases hf : s.manager.finished
    · rfl
    · exact absurd hbusy ((hinv.drained hf).2.2.2.1 work)
  have hheld := fun t => heldTiles_set s.workers i _ (WorkerState.idle work) hw t
  simp only [WorkerState.held, List.count_nil, add_zero] at hheld
  refine { hinv with
    count_eq := ?ce, single_held := ?sh, drained := ?dr, single_result := ?sr,
    finished_root := ?fr }
  case ce =>
    intro t
    have := hinv.count_eq t
    have h2 := hheld t
    simp only [resultTiles_append, resultTiles, workerResult, List.count_append,
      List.append_nil]
    omega
  case sr =>
    intro x hx
    dsimp only at hx
    simp only [List.mem_append, List.mem_singleton] at hx
    rcases hx with hx | rfl
    · exact hinv.single_result x hx
    · exact hinv.single_held work hbusy
  case sh =>
    intro x hwb
    rcases mem_busy_set _ _ _ _ hwb with h1 | h1
    · exact hinv.single_held x h1
    · cases h1
  case dr =>
    intro hfin
    simp [hnf] at hfin
  case fr =>
    intro hfin
    simp [hnf] at hfin

theorem inv_getResult (ts : TileSet) (s s' : System) (hinv : Inv ts s)
    (h : step ts s Action.getResult = some s') : Inv ts s' := by
  obtain ⟨_, hp, hcase⟩ := step_getResult h
  rcases hcase with ⟨hf, rfl⟩ | ⟨hf, r, rest, hq, rfl⟩
  · exact { hinv with joined_finished := fun _ => hf }
  · have hr : ∃ t, r.tiles = [t] :=
      hinv.single_result r (by rw [hq]; exact List.mem_cons_self _ _)
    refine { hinv with
      count_eq := ?ce, consumed_eq := ?co, single_result := ?sr, single_pending := ?sp,
      single_consumed := ?sc, drained := ?dr, finished_root := ?fr, joined_finished := ?jf }
    case ce =>
      intro t
      have := hinv.count_eq t
      simp only [hq, resultTiles, List.count_append, hp, List.count_nil] at this
      dsimp only
      omega
    case co =>
      intro t
      have := hinv.consumed_eq t
      simp only [hp, List.count_nil] at this
      simp only [resultTiles_append, resultTiles, List.count_append, List.append_nil]
      omega
    case sr =>
      intro x hx
      exact hinv.single_result x (by rw [hq]; exact List.mem_cons_of_mem _ hx)
    case sp =>
      obtain ⟨t, ht⟩ := hr
      simp [ht]
    case sc =>
      intro x hx
      dsimp only at hx
      simp only [List.mem_append, List.mem_singleton] at hx
      rcases hx with hx | rfl
      · exact hinv.single_consumed x hx
      · exact hr
    case dr =>
      intro hfin
      simp [hf] at hfin
    case fr =>
      intro hfin
      simp [hf] at hfin
    case jf =>
      intro hj
      have := hinv.joined_finished hj
      simp [hf] at this

end mapcrafter

namespace mapcrafter

/-! ## The parent of a pending tile has not been submitted yet -/

theorem parent_add_last (t : TilePath) (ht : t ≠ []) :
    TilePath.add (TilePath.parent t) (t.getLast ht) = t := by
  unfold TilePath.add TilePath.parent
  exact List.dropLast_append_getLast ht

theorem parent_depth (t : TilePath) (ht : t ≠ []) :
    TilePath.getDepth (TilePath.parent t) = TilePath.getDepth t - 1 := by
  unfold TilePath.getDepth TilePath.parent
  have : 0 < t.length := List.length_pos.mpr ht
  rw [List.length_dropLast]
  omega

theorem digit_mem (d : Nat) (h : 1 ≤ d ∧ d ≤ 4) : d ∈ [1, 2, 3, 4] := by
  obtain ⟨h1, h2⟩ := h
  interval_cases d <;> simp

theorem child_in_rendered (ts : TileSet) (hts : TileTree ts) (sub rendered : List TilePath)
    (hready : ∀ p ∈ sub, TilePath.getDepth p < ts.getDepth - 2 →
      childs_rendered ts rendered p = true)
    (t : TilePath) (ht : t ≠ []) (hreq : ts.isTileRequired t = true)
    (hdepth : TilePath.getDepth t ≤ ts.getDepth - 2)
    (hp : TilePath.parent t ∈ sub) : t ∈ rendered := by
  have hd : t.getLast ht ∈ [1, 2, 3, 4] :=
    digit_mem _ (hts.digits t hreq _ (List.getLast_mem ht))
  have hlt : TilePath.getDepth (TilePath.parent t) < ts.getDepth - 2 := by
    rw [parent_depth t ht]
    omega
  have h := (childs_rendered_iff ts rendered _).mp (hready _ hp hlt) _ hd
  rw [parent_add_last t ht] at h
  rcases h with h | h
  · rw [hreq] at h
    cases h
  · exact h

theorem rendered_down (ts : TileSet) (hts : TileTree ts) (sub rendered : List TilePath)
    (hready : ∀ p ∈ sub, TilePath.getDepth p < ts.getDepth - 2 →
      childs_rendered ts rendered p = true)
    (hsub : ∀ p ∈ rendered, p ∈ sub) (hroot : [] ∈ sub) (u : TilePath) :
    ts.isTileRequired u = true → TilePath.getDepth u ≤ ts.getDepth - 2 →
      u = [] ∨ u ∈ rendered := by
  induction u using List.reverseRecOn with
  | nil => intro _ _; exact Or.inl rfl
  | append_singleton p d ih =>
    intro hreq hdepth
    have hne : p ++ [d] ≠ [] := by simp
    have hpar : TilePath.parent (p ++ [d]) = p := by
      unfold TilePath.parent
      exact List.dropLast_concat
    have hpreq : ts.isTileRequired p = true := by
      have := hts.parent_closed _ hne hreq
      rwa [hpar] at this
    have hpdepth : TilePath.getDepth p ≤ ts.getDepth - 2 := by
      have := parent_depth _ hne
      rw [hpar] at this
      omega
    have hpsub : p ∈ sub := by
      rcases ih hpreq hpdepth with h | h
      · rw [h]; exact hroot
      · exact hsub p h
    right
    exact child_in_rendered ts hts sub rendered hready _ hne hreq hdepth (by rw [hpar]; exact hpsub)

end mapcrafter

namespace mapcrafter

theorem count_single (t u : TilePath) : [t].count u = if t = u then 1 else 0 := by
  simp [List.count_cons]

theorem workTiles_single (w : RenderWork) : workTiles [w] = w.tiles := by
  simp [workTiles]

theorem work_nil_of_no_tiles (l : List RenderWork) (hz : ∀ u, u ∉ workTiles l)
    (hs : ∀ w ∈ l, ∃ t, w.tiles = [t]) : l = [] := by
  cases l with
  | nil => rfl
  | cons w l =>
    obtain ⟨t, ht⟩ := hs w (List.mem_cons_self _ _)
    exact absurd (by simp [workTiles, ht]) (hz t)

theorem result_nil_of_no_tiles (l : List RenderWorkResult) (hz : ∀ u, u ∉ resultTiles l)
    (hs : ∀ r ∈ l, ∃ t, r.tiles = [t]) : l = [] := by
  cases l with
  | nil => rfl
  | cons w l =>
    obtain ⟨t, ht⟩ := hs w (List.mem_cons_self _ _)
    exact absurd (by simp [resultTiles, ht]) (hz t)

theorem no_busy_of_no_tiles (l : List WorkerState) (hz : ∀ u, u ∉ heldTiles l)
    (hs : ∀ w, WorkerState.busy w ∈ l → ∃ t, w.tiles = [t]) :
    ∀ w, WorkerState.busy w ∉ l := by
  intro w hw
  obtain ⟨t, ht⟩ := hs w hw
  exact hz t ((mem_heldTiles l t).mpr ⟨w, hw, by simp [ht]⟩)

theorem inv_tile (ts : TileSet) (hts : TileTree ts) (s s' : System) (hinv : Inv ts s)
    (h : step ts s Action.tile = some s') : Inv ts s' := by
  obtain ⟨t, rest, hp, rfl⟩ := step_tile h
  have hrest : rest = [] := by
    have := hinv.single_pending
    rw [hp] at this
    simp at this
    exact this
  subst hrest
  have hnf : s.manager.finished = false := by
    cases hf : s.manager.finished
    · rfl
    · have := (hinv.drained hf).2.2.2.2
      rw [hp] at this
      cases this
  have hcount := hinv.count_eq
  have hnodup := hinv.nodup
  have htc : ∀ u, s.pending.count u = if t = u then 1 else 0 := by
    intro u
    rw [hp]
    exact count_single t u
  have ht_sub : t ∈ workTiles s.submitted := by
    apply List.count_pos_iff.mp
    have h1 := hcount t
    have h2 := htc t
    simp at h2
    omega
  have ht_nr : t ∉ s.rendered_tiles := by
    apply List.count_eq_zero.mp
    have h1 := hcount t
    have h2 := htc t
    have h3 := hnodup t
    simp at h2
    omega
  have hins : setInsert t s.rendered_tiles = s.rendered_tiles ++ [t] := by
    simp [setInsert, ht_nr]
  have hreq_t := hinv.required t ht_sub
  have hsubr : ∀ p ∈ s.rendered_tiles, p ∈ workTiles s.submitted := by
    intro p hp'
    apply List.count_pos_iff.mp
    have h1 := hcount p
    have h2 : 0 < s.rendered_tiles.count p := List.count_pos_iff.mpr hp'
    omega
  by_cases ht : t = []
  · -- the root: `setFinished`
    subst ht
    rw [processTile_root, hins]
    have hzero : ∀ u, (workTiles s.manager.work_queue).count u = 0 ∧
        (workTiles s.manager.work_extra_queue).count u = 0 ∧
        (heldTiles s.workers).count u = 0 ∧
        (resultTiles s.manager.result_queue).count u = 0 := by
      intro u
      have h1 := hcount u
      have h2 := htc u
      have h3 := hnodup u
      by_cases hu : u ∈ workTiles s.submitted
      · have hr := hinv.required u hu
        rcases rendered_down ts hts _ _ hinv.ready hsubr ht_sub u hr.1 hr.2 with h4 | h4
        · subst h4
          simp at h2
          omega
        · have h5 : 0 < s.rendered_tiles.count u := List.count_pos_iff.mpr h4
          omega
      · have h5 : (workTiles s.submitted).count u = 0 := List.count_eq_zero.mpr hu
        omega
    refine { hinv with
      count_eq := ?ce, consumed_eq := ?co, ready := ?rd, single_pending := ?sp,
      finished_root := ?fr, drained := ?dr, joined_finished := ?jf }
    case jf =>
      intro _
      rfl
    case ce =>
      intro u
      have h1 := hcount u
      have h2 := htc u
      simp only [List.count_append, List.count_nil, count_single]
      simp only [ThreadManager.setFinished]
      omega
    case co =>
      intro u
      have h1 := hinv.consumed_eq u
      have h2 := htc u
      simp only [List.count_append, List.count_nil, count_single]
      omega
    case rd =>
      intro p hp' hlt
      exact childs_rendered_mono ts _ _ p (fun u hu => List.mem_append_left _ hu)
        (hinv.ready p hp' hlt)
    case sp => simp
    case fr =>
      intro _
      simp
    case dr =>
      intro _
      refine ⟨?_, ?_, ?_, ?_, rfl⟩
      · exact work_nil_of_no_tiles _
          (fun u => List.count_eq_zero.mp (hzero u).1) hinv.single_work
      · exact work_nil_of_no_tiles _
          (fun u => List.count_eq_zero.mp (hzero u).2.1) hinv.single_extra
      · exact result_nil_of_no_tiles _
          (fun u => List.count_eq_zero.mp (hzero u).2.2.2) hinv.single_result
      · exact no_busy_of_no_tiles _
          (fun u => List.count_eq_zero.mp (hzero u).2.2.1) hinv.single_held
  · cases hc : childs_rendered ts (setInsert t s.rendered_tiles) (TilePath.parent t)
    · -- the parent is not ready
      rw [processTile_not_ready ts { s with pending := [] } t ht hc, hins]
      refine { hinv with
        count_eq := ?ce, consumed_eq := ?co, ready := ?rd, single_pending := ?sp,
        finished_root := ?fr, drained := ?dr }
      case ce =>
        intro u
        have h1 := hcount u
        have h2 := htc u
        simp only [List.count_append, List.count_nil, count_single]
        omega
      case co =>
        intro u
        have h1 := hinv.consumed_eq u
        have h2 := htc u
        simp only [List.count_append, List.count_nil, count_single]
        omega
      case rd =>
        intro p hp' hlt
        exact childs_rendered_mono ts _ _ p (fun u hu => List.mem_append_left _ hu)
          (hinv.ready p hp' hlt)
      case sp => simp
      case fr =>
        intro hfin
        simp [hnf] at hfin
      case dr =>
        intro hfin
        simp [hnf] at hfin
    · -- the parent is ready: `addExtraWork`
      have hpn : TilePath.parent t ∉ workTiles s.submitted := by
        intro hps
        exact ht_nr (child_in_rendered ts hts _ _ hinv.ready t ht hreq_t.1 hreq_t.2 hps)
      rw [processTile_ready ts { s with pending := [] } t ht hc]
      rw [hins] at hc
      rw [hins]
      have hcw : (compositeWork ts (TilePath.parent t)).tiles = [TilePath.parent t] := rfl
      refine { hinv with
        count_eq := ?ce, nodup := ?nd, consumed_eq := ?co, required := ?rq, ready := ?rd,
        single_extra := ?se, single_submitted := ?ss, single_pending := ?sp,
        finished_root := ?fr, drained := ?dr }
      case ce =>
        intro u
        have h1 := hcount u
        have h2 := htc u
        simp only [ThreadManager.addExtraWork, workTiles_append, workTiles_single, hcw,
          List.count_append, List.count_nil, count_single]
        omega
      case nd =>
        intro u
        have h1 := hnodup u
        simp only [workTiles_append, workTiles_single, hcw, List.count_append, count_single]
        by_cases hu : TilePath.parent t = u
        · subst hu
          have : (workTiles s.submitted).count (TilePath.parent t) = 0 :=
            List.count_eq_zero.mpr hpn
          simp [this]
        · simp [hu]
          exact h1
      case co =>
        intro u
        have h1 := hinv.consumed_eq u
        have h2 := htc u
        simp only [List.count_append, List.count_nil, count_single]
        omega
      case rq =>
        intro u hu
        simp only [workTiles_append, workTiles_single, hcw, List.mem_append,
          List.mem_singleton] at hu
        rcases hu with hu | rfl
        · exact hinv.required u hu
        · refine ⟨hts.parent_closed t ht hreq_t.1, ?_⟩
          rw [parent_depth t ht]
          have := hreq_t.2
          omega
      case rd =>
        intro p hp' hlt
        simp only [workTiles_append, workTiles_single, hcw, List.mem_append,
          List.mem_singleton] at hp'
        rcases hp' with hp' | rfl
        · exact childs_rendered_mono ts _ _ p (fun u hu => List.mem_append_left _ hu)
            (hinv.ready p hp' hlt)
        · exact hc
      case se =>
        intro w hw
        simp only [ThreadManager.addExtraWork, List.mem_append, List.mem_singleton] at hw
        rcases hw with hw | rfl
        · exact hinv.single_extra w hw
        · exact ⟨_, hcw⟩
      case ss =>
        intro w hw
        simp only [List.mem_append, List.mem_singleton] at hw
        rcases hw with hw | rfl
        · exact hinv.single_submitted w hw
        · exact ⟨_, hcw⟩
      case sp => simp
      case fr =>
        intro hfin
        simp [ThreadManager.addExtraWork, hnf] at hfin
      case dr =>
        intro hfin
        simp [ThreadManager.addExtraWork, hnf] at hfin

theorem inv_step (ts : TileSet) (hts : TileTree ts) (s s' : System) (a : Action)
    (hinv : Inv ts s) (h : step ts s a = some s') : Inv ts s' := by
  cases a with
  | getWork i => exact inv_getWork ts s s' i hinv h
  | workFinished i => exact inv_workFinished ts s s' i hinv h
  | getResult => exact inv_getResult ts s s' hinv h
  | tile => exact inv_tile ts hts s s' hinv h

theorem inv_reachable (ts : TileSet) (hts : TileTree ts) (n : Nat) (s : System)
    (h : Reachable ts n s) : Inv ts s := by
  induction h with
  | init => exact inv_init ts hts n
  | step a _ hstep ih => exact inv_step ts hts _ _ a ih hstep

end mapcrafter

namespace mapcrafter

/-! ## Runs -/

theorem reachable_run (ts : TileSet) (n : Nat) (acts : List Action) (s s' : System)
    (hs : Reachable ts n s) (h : run ts s acts = some s') : Reachable ts n s' := by
  induction acts generalizing s with
  | nil =>
    simp [run] at h
    subst h
    exact hs
  | cons a acts ih =>
    simp only [run] at h
    cases hstep : step ts s a with
    | none => simp [hstep] at h
    | some s1 =>
      rw [hstep] at h
      exact ih s1 (Reachable.step a hs hstep) h

theorem rendered_mono_step (ts : TileSet) (s s' : System) (a : Action)
    (h : step ts s a = some s') : ∀ u ∈ s.rendered_tiles, u ∈ s'.rendered_tiles := by
  intro u hu
  cases a with
  | getWork i =>
    obtain ⟨_, _, hcase⟩ := step_getWork h
    rcases hcase with ⟨_, rfl⟩ | ⟨_, _, _, _, rfl⟩ | ⟨_, _, _, _, _, rfl⟩ <;> exact hu
  | workFinished i =>
    obtain ⟨_, _, rfl⟩ := step_workFinished h
    exact hu
  | getResult =>
    obtain ⟨_, _, hcase⟩ := step_getResult h
    rcases hcase with ⟨_, rfl⟩ | ⟨_, _, _, _, rfl⟩ <;> exact hu
  | tile =>
    obtain ⟨t, rest, _, rfl⟩ := step_tile h
    have hm : u ∈ setInsert t s.rendered_tiles := (mem_setInsert t u _).mpr (Or.inr hu)
    unfold processTile
    dsimp only
    split
    · exact hm
    · split
      · exact hm
      · exact hm

theorem extras_ready (ts : TileSet) (n : Nat) (s : System) (h : Reachable ts n s) :
    ∃ extras,
      s.submitted =
        ((seedTiles ts).map fun t => ({ tiles := [t], tiles_skip := [] } : RenderWork)) ++
          extras ∧
      ∀ w ∈ extras, ∃ p, w = compositeWork ts p ∧ childs_rendered ts s.rendered_tiles p = true := by
  induction h with
  | init => exact ⟨[], by simp [dispatchInit], by simp⟩
  | @step s s' a _ hstep ih =>
    obtain ⟨extras, hsub, hex⟩ := ih
    have hmono := rendered_mono_step ts s s' a hstep
    have hkeep : ∀ w ∈ extras,
        ∃ p, w = compositeWork ts p ∧ childs_rendered ts s'.rendered_tiles p = true := by
      intro w hw
      obtain ⟨p, hp, hr⟩ := hex w hw
      exact ⟨p, hp, childs_rendered_mono ts _ _ p hmono hr⟩
    cases a with
    | getWork i =>
      obtain ⟨_, _, hcase⟩ := step_getWork hstep
      rcases hcase with ⟨_, rfl⟩ | ⟨_, _, _, _, rfl⟩ | ⟨_, _, _, _, _, rfl⟩ <;>
        exact ⟨extras, hsub, hkeep⟩
    | workFinished i =>
      obtain ⟨_, _, rfl⟩ := step_workFinished hstep
      exact ⟨extras, hsub, hkeep⟩
    | getResult =>
      obtain ⟨_, _, hcase⟩ := step_getResult hstep
      rcases hcase with ⟨_, rfl⟩ | ⟨_, _, _, _, rfl⟩ <;> exact ⟨extras, hsub, hkeep⟩
    | tile =>
      obtain ⟨t, rest, _, hs'⟩ := step_tile hstep
      by_cases ht : t = []
      · subst ht
        rw [processTile_root] at hs'
        subst hs'
        exact ⟨extras, hsub, hkeep⟩
      · cases hc : childs_rendered ts (setInsert t s.rendered_tiles) (TilePath.parent t)
        · rw [processTile_not_ready ts { s with pending := rest } t ht hc] at hs'
          subst hs'
          exact ⟨extras, hsub, hkeep⟩
        · rw [processTile_ready ts { s with pending := rest } t ht hc] at hs'
          subst hs'
          refine ⟨extras ++ [compositeWork ts (TilePath.parent t)], ?_, ?_⟩
          · simp [hsub]
          · intro w hw
            simp only [List.mem_append, List.mem_singleton] at hw
            rcases hw with hw | rfl
            · exact hkeep w hw
            · exact ⟨_, rfl, hc⟩

theorem extra_queue_ready (ts : TileSet) (n : Nat) (s : System) (h : Reachable ts n s) :
    ∀ w ∈ s.manager.work_extra_queue,
      ∃ p, w = compositeWork ts p ∧ childs_rendered ts s.rendered_tiles p = true := by
  induction h with
  | init =>
    intro w hw
    simp [dispatchInit, seedWork_init] at hw
  | @step s s' a _ hstep ih =>
    have hmono := rendered_mono_step ts s s' a hstep
    have hkeep : ∀ w ∈ s.manager.work_extra_queue,
        ∃ p, w = compositeWork ts p ∧ childs_rendered ts s'.rendered_tiles p = true := by
      intro w hw
      obtain ⟨p, hp, hr⟩ := ih w hw
      exact ⟨p, hp, childs_rendered_mono ts _ _ p hmono hr⟩
    cases a with
    | getWork i =>
      obtain ⟨_, _, hcase⟩ := step_getWork hstep
      rcases hcase with ⟨_, rfl⟩ | ⟨_, x, rest, he, rfl⟩ | ⟨_, _, _, _, _, rfl⟩
      · exact hkeep
      · intro w hw
        exact hkeep w (by rw [he]; exact List.mem_cons_of_mem _ hw)
      · exact hkeep
    | workFinished i =>
      obtain ⟨_, _, rfl⟩ := step_workFinished hstep
      exact hkeep
    | getResult =>
      obtain ⟨_, _, hcase⟩ := step_getResult hstep
      rcases hcase with ⟨_, rfl⟩ | ⟨_, _, _, _, rfl⟩ <;> exact hkeep
    | tile =>
      obtain ⟨t, rest, _, hs'⟩ := step_tile hstep
      by_cases ht : t = []
      · subst ht
        rw [processTile_root] at hs'
        subst hs'
        exact hkeep
      · cases hc : childs_rendered ts (setInsert t s.rendered_tiles) (TilePath.parent t)
        · rw [processTile_not_ready ts { s with pending := rest } t ht hc] at hs'
          subst hs'
          exact hkeep
        · rw [processTile_ready ts { s with pending := rest } t ht hc] at hs'
          subst hs'
          intro w hw
          simp only [ThreadManager.addExtraWork, List.mem_append, List.mem_singleton] at hw
          rcases hw with hw | rfl
          · exact hkeep w hw
          · exact ⟨_, rfl, hc⟩

/-- A tile set given by its list of required tiles is a tile tree when the
listed conditions, all decidable, hold. -/
theorem tileTree_ofRequired (d : Int) (tiles : List TilePath)
    (h1 : (seedTiles (TileSet.ofRequired d tiles)).Nodup)
    (h2 : ∀ t ∈ tiles, (t ≠ [] → TilePath.parent t ∈ tiles) ∧ ∀ i ∈ t, 1 ≤ i ∧ i ≤ 4) :
    TileTree (TileSet.ofRequired d tiles) := by
  constructor
  · exact h1
  · intro t ht
    simp only [seedTiles, TileSet.ofRequired, List.mem_filter] at ht
    simp [TileSet.ofRequired, ht.1]
  · intro t hne ht
    simp only [TileSet.ofRequired, decide_eq_true_eq] at ht ⊢
    exact (h2 t ht).1 hne
  · intro t ht
    simp only [TileSet.ofRequired, decide_eq_true_eq] at ht
    exact (h2 t ht).2

theorem exampleDepth3_tree : TileTree exampleDepth3 :=
  tileTree_ofRequired _ _ (by decide) (by decide)

theorem exampleDepth4_tree : TileTree exampleDepth4 :=
  tileTree_ofRequired _ _ (by decide) (by decide)

end mapcrafter

namespace mapcrafter

theorem reachable_runFrom (ts : TileSet) (n : Nat) (acts : List Action) :
    Reachable ts n (runFrom ts n acts) := by
  unfold runFrom
  cases h : run ts (dispatchInit ts n) acts with
  | none => exact Reachable.init
  | some s => exact reachable_run ts n acts _ s Reachable.init h

theorem filter_length_le_count (l : List RenderWork) (t : TilePath) :
    (l.filter fun w => decide (t ∈ w.tiles)).length ≤ (workTiles l).count t := by
  induction l with
  | nil => simp [workTiles]
  | cons w l ih =>
    simp only [List.filter_cons, workTiles, List.count_append]
    by_cases h : t ∈ w.tiles
    · have : 0 < w.tiles.count t := List.count_pos_iff.mpr h
      simp only [h, decide_True, if_true, List.length_cons]
      omega
    · simp only [h, decide_False]
      simp
      omega

theorem filter_length_eq_count (l : List RenderWorkResult) (t : TilePath)
    (hs : ∀ r ∈ l, ∃ u, r.tiles = [u]) :
    (l.filter fun r => decide (t ∈ r.tiles)).length = (resultTiles l).count t := by
  induction l with
  | nil => simp [resultTiles]
  | cons r l ih =>
    have ih' := ih fun x hx => hs x (List.mem_cons_of_mem _ hx)
    obtain ⟨u, hu⟩ := hs r (List.mem_cons_self _ _)
    simp only [List.filter_cons, resultTiles, List.count_append, hu, count_single,
      List.mem_singleton]
    by_cases h : u = t
    · subst h
      simp [ih']
      omega
    · have h' : ¬ t = u := fun e => h e.symm
      simp [h, h', ih']

/-! ## The claims about `dispatch` -/

/-- C1: for every state of the dispatcher and every non-root tile `t` of a
consumed result, the pass of the inner loop inserts `t` into `rendered_tiles`
and then submits the composite item for `parent(t)` to the extra lane if and
only if every child `parent(t)+i`, `i = 1..4`, is not required or is in
`rendered_tiles`: the extra lane afterwards is the extra lane before with that
one item (whose `tiles` is `{parent(t)}`) appended when the condition holds,
and is the extra lane before when it fails; the normal lane, the result lane
and the finished flag are unchanged either way.  Consequently, in every state
of every run, each item in the extra lane, and each item ever submitted to
it, names one tile all of whose required children are in `rendered_tiles`. -/
theorem processTile_submits_iff_ready (ts : TileSet) :
    (∀ (s : System) (t : TilePath), t ≠ [] →
      (processTile ts s t).rendered_tiles = setInsert t s.rendered_tiles ∧
      (processTile ts s t).manager.work_queue = s.manager.work_queue ∧
      (processTile ts s t).manager.result_queue = s.manager.result_queue ∧
      (processTile ts s t).manager.finished = s.manager.finished ∧
      (compositeWork ts (TilePath.parent t)).tiles = [TilePath.parent t] ∧
      ((∀ i ∈ [1, 2, 3, 4],
          ts.isTileRequired (TilePath.add (TilePath.parent t) i) = false ∨
            TilePath.add (TilePath.parent t) i ∈ setInsert t s.rendered_tiles) ↔
        (processTile ts s t).manager.work_extra_queue =
          s.manager.work_extra_queue ++ [compositeWork ts (TilePath.parent t)]) ∧
      (¬ (∀ i ∈ [1, 2, 3, 4],
          ts.isTileRequired (TilePath.add (TilePath.parent t) i) = false ∨
            TilePath.add (TilePath.parent t) i ∈ setInsert t s.rendered_tiles) ↔
        (processTile ts s t).manager.work_extra_queue = s.manager.work_extra_queue) ∧
      ((∀ i ∈ [1, 2, 3, 4],
          ts.isTileRequired (TilePath.add (TilePath.parent t) i) = false ∨
            TilePath.add (TilePath.parent t) i ∈ setInsert t s.rendered_tiles) →
        (processTile ts s t).submitted =
          s.submitted ++ [compositeWork ts (TilePath.parent t)]) ∧
      (¬ (∀ i ∈ [1, 2, 3, 4],
          ts.isTileRequired (TilePath.add (TilePath.parent t) i) = false ∨
            TilePath.add (TilePath.parent t) i ∈ setInsert t s.rendered_tiles) →
        (processTile ts s t).submitted = s.submitted)) ∧
    (∀ (n : Nat) (s : System), Reachable ts n s →
      (∀ w ∈ s.manager.work_extra_queue,
        ∃ p, w.tiles = [p] ∧
          ∀ i ∈ [1, 2, 3, 4],
            ts.isTileRequired (TilePath.add p i) = false ∨
              TilePath.add p i ∈ s.rendered_tiles) ∧
      (∀ w ∈ s.submitted.drop (seedTiles ts).length,
        ∃ p, w.tiles = [p] ∧
          ∀ i ∈ [1, 2, 3, 4],
            ts.isTileRequired (TilePath.add p i) = false ∨
              TilePath.add p i ∈ s.rendered_tiles)) := by
  refine ⟨?_, ?_⟩
  · intro s t ht
    have hlen : s.manager.work_extra_queue ++ [compositeWork ts (TilePath.parent t)] ≠
        s.manager.work_extra_queue := by
      intro h
      have := congrArg List.length h
      simp at this
    cases hc : childs_rendered ts (setInsert t s.rendered_tiles) (TilePath.parent t)
    · have hn := hc
      rw [← Bool.not_eq_true, childs_rendered_iff] at hn
      rw [processTile_not_ready ts s t ht hc]
      refine ⟨rfl, rfl, rfl, rfl, rfl, ?_, ?_, fun h => absurd h hn, fun _ => rfl⟩
      · constructor
        · intro h
          exact absurd h hn
        · intro h
          exact absurd h.symm hlen
      · constructor
        · intro _
          rfl
        · intro _
          exact hn
    · have hy := (childs_rendered_iff ts _ _).mp hc
      rw [processTile_ready ts s t ht hc]
      refine ⟨rfl, rfl, rfl, rfl, rfl, ?_, ?_, fun _ => rfl, fun h => absurd hy h⟩
      · constructor
        · intro _
          rfl
        · intro _
          exact hy
      · constructor
        · intro h
          exact absurd hy h
        · intro h
          exact absurd h hlen
  · intro n s hs
    refine ⟨?_, ?_⟩
    · intro w hw
      obtain ⟨p, rfl, hr⟩ := extra_queue_ready ts n s hs w hw
      exact ⟨p, rfl, (childs_rendered_iff ts _ _).mp hr⟩
    · intro w hw
      obtain ⟨extras, hsub, hex⟩ := extras_ready ts n s hs
      rw [hsub] at hw
      have hlen : (seedTiles ts).length =
          ((seedTiles ts).map
            fun t => ({ tiles := [t], tiles_skip := [] } : RenderWork)).length := by
        simp
      rw [hlen, List.drop_left] at hw
      obtain ⟨p, rfl, hr⟩ := hex w hw
      exact ⟨p, rfl, (childs_rendered_iff ts _ _).mp hr⟩

/-- C1, at concrete states: in `exampleDepth3` the result for tile 1 makes the
root ready and the item for the root is appended to the extra lane; in
`exampleDepth4` the result for tile 1-1 alone leaves tile 1 waiting for 1-2
and the extra lane stays as it was; and after four moves of the run of
`exampleDepth3`, when the root's item sits in the extra lane, the items in
that lane have their required children rendered. -/
theorem processTile_submits_iff_ready_witness :
    ((processTile exampleDepth3 (runFrom exampleDepth3 1 (exampleRun3.take 3))
        [1]).manager.work_extra_queue =
      (runFrom exampleDepth3 1 (exampleRun3.take 3)).manager.work_extra_queue ++
        [compositeWork exampleDepth3 (TilePath.parent [1])]) ∧
    ((processTile exampleDepth4 (dispatchInit exampleDepth4 2) [1, 1]).manager.work_extra_queue =
      (dispatchInit exampleDepth4 2).manager.work_extra_queue) ∧
    (∀ w ∈ (runFrom exampleDepth3 1 (exampleRun3.take 4)).manager.work_extra_queue,
      ∃ p, w.tiles = [p] ∧
        ∀ i ∈ [1, 2, 3, 4],
          exampleDepth3.isTileRequired (TilePath.add p i) = false ∨
            TilePath.add p i ∈ (runFrom exampleDepth3 1 (exampleRun3.take 4)).rendered_tiles) :=
  ⟨((processTile_submits_iff_ready exampleDepth3).1 _ [1] (by decide)).2.2.2.2.2.1.mp
      (by decide),
   ((processTile_submits_iff_ready exampleDepth4).1 _ [1, 1] (by decide)).2.2.2.2.2.2.1.mp
      (by decide),
   ((processTile_submits_iff_ready exampleDepth3).2 1 _ (reachable_runFrom _ _ _)).1⟩

/-- C2: over a tile tree (seeded tiles pairwise distinct and required, the
required predicate closed under taking the parent, digits in 1..4), in every
state of every run of the dispatcher and its workers the tiles of all work
items ever submitted (by `addWork` or `addExtraWork`) are pairwise distinct:
each address occurs in the tiles of at most one submitted work item, so no
evaluation of a parent's readiness ever leads to a second submission. -/
theorem no_tile_scheduled_twice (ts : TileSet) (hts : TileTree ts) (n : Nat) (s : System)
    (h : Reachable ts n s) :
    (workTiles s.submitted).Nodup ∧
      ∀ t, (s.submitted.filter fun w => decide (t ∈ w.tiles)).length ≤ 1 := by
  have hinv := inv_reachable ts hts n s h
  refine ⟨(nodup_iff_count_le_one _).mpr hinv.nodup, ?_⟩
  intro t
  exact le_trans (filter_length_le_count _ t) (hinv.nodup t)

/-- C2, at the end of the complete run of `exampleDepth4` with two workers. -/
theorem no_tile_scheduled_twice_witness :
    (workTiles (runFrom exampleDepth4 2 exampleRun4).submitted).Nodup ∧
      ∀ t, ((runFrom exampleDepth4 2 exampleRun4).submitted.filter
        fun w => decide (t ∈ w.tiles)).length ≤ 1 :=
  no_tile_scheduled_twice exampleDepth4 exampleDepth4_tree 2 _ (reachable_runFrom _ _ _)

end mapcrafter

namespace mapcrafter

/-- C3 (refuted as stated): in the complete run of `exampleDepth3` the channel
is finished although tile 1-1, for which the required-tile predicate is true
and whose depth 2 lies between the root and the depth 3 of the tile set, is in
the tiles of no consumed result and not in `rendered_tiles`. -/
theorem required_tile_never_consumed_counterexample :
    (runFrom exampleDepth3 1 exampleRun3).manager.finished = true ∧
    exampleDepth3.isTileRequired [1, 1] = true ∧
    TilePath.getDepth [1, 1] ≤ exampleDepth3.getDepth ∧
    ((runFrom exampleDepth3 1 exampleRun3).consumed.filter
      fun r => decide ([1, 1] ∈ r.tiles)).length = 0 ∧
    [1, 1] ∉ (runFrom exampleDepth3 1 exampleRun3).rendered_tiles := by
  decide

/-- C3 (amended): over a tile tree, in every state of a run: if the channel is
finished, each required address of depth at most `getDepth() - 2` (the depth
of the seeded tiles) is in the tiles of exactly one consumed result and is in
`rendered_tiles`; and an address deeper than `getDepth() - 2`, required or
not, is in the tiles of no work item of the normal or the extra lane, of no
work item ever submitted, of no result in the result lane and of no consumed
result, and is not in `rendered_tiles`. -/
theorem required_tiles_consumed_once (ts : TileSet) (hts : TileTree ts) (n : Nat) (s : System)
    (h : Reachable ts n s) :
    (s.manager.finished = true →
      ∀ t, ts.isTileRequired t = true → TilePath.getDepth t ≤ ts.getDepth - 2 →
        (s.consumed.filter fun r => decide (t ∈ r.tiles)).length = 1 ∧
          t ∈ s.rendered_tiles) ∧
    (∀ t, ts.getDepth - 2 < TilePath.getDepth t →
      (∀ w ∈ s.manager.work_queue, t ∉ w.tiles) ∧
      (∀ w ∈ s.manager.work_extra_queue, t ∉ w.tiles) ∧
      (∀ w ∈ s.submitted, t ∉ w.tiles) ∧
      (∀ r ∈ s.manager.result_queue, t ∉ r.tiles) ∧
      (∀ r ∈ s.consumed, t ∉ r.tiles) ∧
      t ∉ s.rendered_tiles) := by
  have hinv := inv_reachable ts hts n s h
  refine ⟨?_, ?_⟩
  · intro hf t hreq hd
    have hroot := hinv.finished_root hf
    have hsubr : ∀ p ∈ s.rendered_tiles, p ∈ workTiles s.submitted := by
      intro p hp
      apply List.count_pos_iff.mp
      have h1 := hinv.count_eq p
      have h2 : 0 < s.rendered_tiles.count p := List.count_pos_iff.mpr hp
      omega
    have ht : t ∈ s.rendered_tiles := by
      rcases rendered_down ts hts _ _ hinv.ready hsubr (hsubr _ hroot) t hreq hd with h1 | h1
      · rw [h1]; exact hroot
      · exact h1
    refine ⟨?_, ht⟩
    rw [filter_length_eq_count _ _ hinv.single_consumed]
    have h1 := hinv.consumed_eq t
    have h2 := hinv.count_eq t
    have h3 := hinv.nodup t
    have h4 : 0 < s.rendered_tiles.count t := List.count_pos_iff.mpr ht
    have h5 : s.pending = [] := (hinv.drained hf).2.2.2.2
    rw [h5] at h1
    simp only [List.count_nil] at h1
    omega
  · intro t hdeep
    have hns : t ∉ workTiles s.submitted := by
      intro hmem
      have := (hinv.required t hmem).2
      omega
    have h0 : (workTiles s.submitted).count t = 0 := List.count_eq_zero.mpr hns
    have h1 := hinv.count_eq t
    have h2 := hinv.consumed_eq t
    have hwq : t ∉ workTiles s.manager.work_queue := by
      apply List.count_eq_zero.mp
      omega
    have heq : t ∉ workTiles s.manager.work_extra_queue := by
      apply List.count_eq_zero.mp
      omega
    have hrq : t ∉ resultTiles s.manager.result_queue := by
      apply List.count_eq_zero.mp
      omega
    have hco : t ∉ resultTiles s.consumed := by
      apply List.count_eq_zero.mp
      omega
    have hre : t ∉ s.rendered_tiles := by
      apply List.count_eq_zero.mp
      omega
    refine ⟨?_, ?_, ?_, ?_, ?_, hre⟩
    · intro w hw hm
      exact hwq ((mem_workTiles _ t).mpr ⟨w, hw, hm⟩)
    · intro w hw hm
      exact heq ((mem_workTiles _ t).mpr ⟨w, hw, hm⟩)
    · intro w hw hm
      exact hns ((mem_workTiles _ t).mpr ⟨w, hw, hm⟩)
    · intro r hr hm
      exact hrq ((mem_resultTiles _ t).mpr ⟨r, hr, hm⟩)
    · intro r hr hm
      exact hco ((mem_resultTiles _ t).mpr ⟨r, hr, hm⟩)

/-- C3 (amended), at the ends of the complete runs: in `exampleDepth4` tile 1-2
was consumed exactly once and is rendered; in `exampleDepth3` the required
tile 1-1, one level below the seeded depth, is in no submitted work item, in
no consumed result and not in `rendered_tiles`. -/
theorem required_tiles_consumed_once_witness :
    (((runFrom exampleDepth4 2 exampleRun4).consumed.filter
        fun r => decide ([1, 2] ∈ r.tiles)).length = 1 ∧
      [1, 2] ∈ (runFrom exampleDepth4 2 exampleRun4).rendered_tiles) ∧
    ((∀ w ∈ (runFrom exampleDepth3 1 exampleRun3).submitted, [1, 1] ∉ w.tiles) ∧
      (∀ r ∈ (runFrom exampleDepth3 1 exampleRun3).consumed, [1, 1] ∉ r.tiles) ∧
      [1, 1] ∉ (runFrom exampleDepth3 1 exampleRun3).rendered_tiles) :=
  ⟨(required_tiles_consumed_once exampleDepth4 exampleDepth4_tree 2 _
      (reachable_runFrom _ _ _)).1 (by decide) [1, 2] (by decide) (by decide),
   ((required_tiles_consumed_once exampleDepth3 exampleDepth3_tree 1 _
      (reachable_runFrom _ _ _)).2 [1, 1] (by decide)).2.2.1,
   ((required_tiles_consumed_once exampleDepth3 exampleDepth3_tree 1 _
      (reachable_runFrom _ _ _)).2 [1, 1] (by decide)).2.2.2.2.1,
   ((required_tiles_consumed_once exampleDepth3 exampleDepth3_tree 1 _
      (reachable_runFrom _ _ _)).2 [1, 1] (by decide)).2.2.2.2.2⟩

theorem seedTiles_shallow (ts : TileSet) (h : ts.getDepth < 2) : seedTiles ts = [] := by
  unfold seedTiles
  rw [List.filter_eq_nil_iff]
  intro t _
  have : (0 : Int) ≤ TilePath.getDepth t := by
    unfold TilePath.getDepth
    omega
  simp
  omega

/-- C5 (the code at the failing inputs): for a tile set with `getDepth() < 2`
the seeding loop submits nothing, so in the state in which the workers start
the channel is not finished, all three lanes are empty, and no move is
enabled: every worker sleeps in `getWork` and the dispatcher sleeps in
`getResult`, for ever. -/
theorem dispatch_shallow_deadlock (ts : TileSet) (h : ts.getDepth < 2) (n : Nat) :
    (dispatchInit ts n).manager =
      { work_queue := [], work_extra_queue := [], result_queue := [], finished := false } ∧
    ∀ a, step ts (dispatchInit ts n) a = none := by
  have hm : (dispatchInit ts n).manager =
      { work_queue := [], work_extra_queue := [], result_queue := [], finished := false } := by
    simp [dispatchInit, seedWork_init, seedTiles_shallow ts h]
  refine ⟨hm, ?_⟩
  intro a
  cases a with
  | getWork i =>
    simp only [step, hm]
    by_cases hi : i < n
    · simp [dispatchInit, List.getElem?_replicate, hi, ThreadManager.getWork]
    · simp [dispatchInit, List.getElem?_replicate, hi]
  | workFinished i =>
    simp only [step]
    by_cases hi : i < n
    · simp [dispatchInit, List.getElem?_replicate, hi]
    · simp [dispatchInit, List.getElem?_replicate, hi]
  | getResult =>
    simp only [step, hm]
    simp [dispatchInit, ThreadManager.getResult]
  | tile =>
    simp [step, dispatchInit]

/-- C5, at the tile set of depth 1 whose only composite tile is the root, with
two workers. -/
theorem dispatch_shallow_deadlock_witness :
    (dispatchInit exampleDepth1 2).manager =
      { work_queue := [], work_extra_queue := [], result_queue := [], finished := false } ∧
    ∀ a, step exampleDepth1 (dispatchInit exampleDepth1 2) a = none :=
  dispatch_shallow_deadlock exampleDepth1 (by decide) 2

end mapcrafter

namespace mapcrafter

/-- C9 (refuted as stated): in `exampleDepth3` the composite item submitted
for the root after tile 1 has been rendered has `tiles_skip = {1}`, the child
that exists and is required, whereas the children the required-tile predicate
marks as not needed are 2, 3 and 4. -/
theorem composite_skip_counterexample :
    (runFrom exampleDepth3 1 (exampleRun3.take 4)).manager.work_extra_queue =
      [⟨[[]], [[1]]⟩] ∧
    exampleDepth3.isTileRequired [1] = true ∧
    (([1, 2, 3, 4].filter fun i => !exampleDepth3.isTileRequired (TilePath.add [] i)).map
      (TilePath.add [])) = [[2], [3], [4]] := by
  decide

/-- C9 (amended): the composite work item built for a parent `p` has
`tiles = {p}` and `tiles_skip` equal to exactly the set of children `p+i`,
`i` in 1..4, for which `hasTile(p+i)` holds; this is the item a pass of the
inner loop submits when the parent is ready, and every item submitted to the
extra lane in a run is of this form. -/
theorem composite_work_skips_existing_children (ts : TileSet) :
    (∀ p, (compositeWork ts p).tiles = [p] ∧
      ∀ c, c ∈ (compositeWork ts p).tiles_skip ↔
        ∃ i, (1 ≤ i ∧ i ≤ 4) ∧ c = TilePath.add p i ∧ ts.hasTile c = true) ∧
    (∀ (s : System) (t : TilePath), t ≠ [] →
      childs_rendered ts (setInsert t s.rendered_tiles) (TilePath.parent t) = true →
      (processTile ts s t).manager.work_extra_queue =
        s.manager.work_extra_queue ++ [compositeWork ts (TilePath.parent t)]) ∧
    (∀ (n : Nat) (s : System), Reachable ts n s →
      ∀ w ∈ s.submitted.drop (seedTiles ts).length, ∃ p, w = compositeWork ts p) := by
  refine ⟨?_, ?_, ?_⟩
  · intro p
    refine ⟨rfl, ?_⟩
    intro c
    simp only [compositeWork, List.mem_map, List.mem_filter]
    constructor
    · rintro ⟨i, ⟨hi, hh⟩, rfl⟩
      refine ⟨i, ?_, rfl, hh⟩
      simp at hi
      omega
    · rintro ⟨i, hi, rfl, hh⟩
      exact ⟨i, ⟨digit_mem i hi, hh⟩, rfl⟩
  · intro s t ht hc
    rw [processTile_ready ts s t ht hc]
    rfl
  · intro n s hs w hw
    obtain ⟨extras, hsub, hex⟩ := extras_ready ts n s hs
    rw [hsub] at hw
    have hlen : (seedTiles ts).length =
        ((seedTiles ts).map fun t => ({ tiles := [t], tiles_skip := [] } : RenderWork)).length := by
      simp
    rw [hlen, List.drop_left] at hw
    obtain ⟨p, hp, _⟩ := hex w hw
    exact ⟨p, hp⟩

/-- C9 (amended), at concrete states of `exampleDepth4`: when the result for
tile 1-2 is processed after 1-1, the item for tile 1 is appended to the extra
lane, and all items submitted to the extra lane in the complete run are
composite items. -/
theorem composite_work_skips_existing_children_witness :
    (processTile exampleDepth4 (runFrom exampleDepth4 2 (exampleRun4.take 7)) [1, 1]).manager.work_extra_queue =
      (runFrom exampleDepth4 2 (exampleRun4.take 7)).manager.work_extra_queue ++
        [compositeWork exampleDepth4 (TilePath.parent [1, 1])] ∧
    ∀ w ∈ (runFrom exampleDepth4 2 exampleRun4).submitted.drop (seedTiles exampleDepth4).length,
      ∃ p, w = compositeWork exampleDepth4 p :=
  ⟨(composite_work_skips_existing_children exampleDepth4).2.1 _ [1, 1] (by decide) (by decide),
   (composite_work_skips_existing_children exampleDepth4).2.2 2 _ (reachable_runFrom _ _ _)⟩

/-- C10: over a tile tree, in every state of a run: a move that sets the
finished flag is the pass of the dispatcher's inner loop for the root, the
only pending tile, and at that moment the normal lane, the extra lane and the
result lane are empty and no worker holds a work item; and whenever the
finished flag is set the three lanes are empty, no worker holds a work item
and no tile is pending, so the `false` that `getWork` and `getResult` return
from then on discards nothing. -/
theorem setFinished_drops_nothing (ts : TileSet) (hts : TileTree ts) (n : Nat) (s : System)
    (h : Reachable ts n s) :
    (∀ a s', step ts s a = some s' → s.manager.finished = false →
      s'.manager.finished = true →
        a = Action.tile ∧ s.pending = [[]] ∧
          s.manager.work_queue = [] ∧ s.manager.work_extra_queue = [] ∧
          s.manager.result_queue = [] ∧ ∀ w, WorkerState.busy w ∉ s.workers) ∧
    (s.manager.finished = true →
      s.manager.work_queue = [] ∧ s.manager.work_extra_queue = [] ∧
        s.manager.result_queue = [] ∧ (∀ w, WorkerState.busy w ∉ s.workers) ∧
        s.pending = []) := by
  have hinv := inv_reachable ts hts n s h
  refine ⟨?_, hinv.drained⟩
  intro a s' hstep hnf hf'
  have hinv' := inv_step ts hts s s' a hinv hstep
  cases a with
  | getWork i =>
    obtain ⟨_, _, hcase⟩ := step_getWork hstep
    rcases hcase with ⟨_, rfl⟩ | ⟨_, _, _, _, rfl⟩ | ⟨_, _, _, _, _, rfl⟩ <;>
      simp [hnf] at hf'
  | workFinished i =>
    obtain ⟨_, _, rfl⟩ := step_workFinished hstep
    simp [hnf] at hf'
  | getResult =>
    obtain ⟨_, _, hcase⟩ := step_getResult hstep
    rcases hcase with ⟨_, rfl⟩ | ⟨_, _, _, _, rfl⟩ <;> simp [hnf] at hf'
  | tile =>
    obtain ⟨t, rest, hp, hs'⟩ := step_tile hstep
    by_cases ht : t = []
    · subst ht
      rw [processTile_root] at hs'
      subst hs'
      obtain ⟨h1, h2, h3, h4, h5⟩ := hinv'.drained hf'
      have h5' : rest = [] := h5
      subst h5'
      exact ⟨rfl, hp, h1, h2, h3, h4⟩
    · exfalso
      cases hc : childs_rendered ts (setInsert t s.rendered_tiles) (TilePath.parent t)
      · rw [processTile_not_ready ts { s with pending := rest } t ht hc] at hs'
        subst hs'
        simp [hnf] at hf'
      · rw [processTile_ready ts { s with pending := rest } t ht hc] at hs'
        subst hs'
        simp [ThreadManager.addExtraWork, hnf] at hf'

/-- C10, in the run of `exampleDepth4` with two workers: the pass of the inner
loop for the root sets the finished flag while all lanes are empty and no
worker holds an item, and at the end of the run nothing is left anywhere. -/
theorem setFinished_drops_nothing_witness :
    (Action.tile = Action.tile ∧
      (runFrom exampleDepth4 2 (exampleRun4.take 23)).pending = [[]] ∧
      (runFrom exampleDepth4 2 (exampleRun4.take 23)).manager.work_queue = [] ∧
      (runFrom exampleDepth4 2 (exampleRun4.take 23)).manager.work_extra_queue = [] ∧
      (runFrom exampleDepth4 2 (exampleRun4.take 23)).manager.result_queue = [] ∧
      ∀ w, WorkerState.busy w ∉ (runFrom exampleDepth4 2 (exampleRun4.take 23)).workers) ∧
    ((runFrom exampleDepth4 2 exampleRun4).manager.work_queue = [] ∧
      (runFrom exampleDepth4 2 exampleRun4).manager.work_extra_queue = [] ∧
      (runFrom exampleDepth4 2 exampleRun4).manager.result_queue = [] ∧
      (∀ w, WorkerState.busy w ∉ (runFrom exampleDepth4 2 exampleRun4).workers) ∧
      (runFrom exampleDepth4 2 exampleRun4).pending = []) :=
  ⟨(setFinished_drops_nothing exampleDepth4 exampleDepth4_tree 2 _
      (reachable_runFrom _ _ _)).1 Action.tile (runFrom exampleDepth4 2 (exampleRun4.take 24))
      (by decide) (by decide) (by decide),
   (setFinished_drops_nothing exampleDepth4 exampleDepth4_tree 2 _
      (reachable_runFrom _ _ _)).2 (by decide)⟩

end mapcrafter

namespace mapcrafter

/-! ## findMarkers and the world boundaries -/

theorem findSignMarkers_eq (world_crop : WorldCrop) (config_markers : List MarkerSection)
    (world_name : String) (markers : Markers) (sign : SignEntity) :
    findSignMarkers world_crop config_markers world_name markers sign =
      if world_crop.isBlockContainedXZ sign.getPos = false ∧
          world_crop.isBlockContainedY sign.getPos = false then markers
      else addSignMarker config_markers world_name sign markers := by
  unfold findSignMarkers
  cases world_crop.isBlockContainedXZ sign.getPos <;>
    cases world_crop.isBlockContainedY sign.getPos <;> simp

/-- C11 (the code at the failing inputs): with the crop x, z in -100..100 and
y in 0..64 and one marker section that matches every sign, `findMarkers` adds
a marker for the sign at y = 200 (it fails `isBlockContainedY` only) and for
the sign at x = 5000 (it fails `isBlockContainedXZ` only); only the sign that
fails both tests is left out. -/
theorem findMarkers_uses_sign_outside_one_bound :
    exampleCrop.isBlockContainedXZ signAbove.getPos = true ∧
    exampleCrop.isBlockContainedY signAbove.getPos = false ∧
    markersOf (findMarkers (exampleConfig [signAbove])) "homes" "world" =
      [{ pos := { x := 0, z := 0, y := 200 }, title := "sky base", text := "sky base" }] ∧
    exampleCrop.isBlockContainedXZ signFarAway.getPos = false ∧
    exampleCrop.isBlockContainedY signFarAway.getPos = true ∧
    markersOf (findMarkers (exampleConfig [signFarAway])) "homes" "world" =
      [{ pos := { x := 5000, z := 0, y := 10 }, title := "outpost", text := "outpost" }] ∧
    exampleCrop.isBlockContainedXZ signOutside.getPos = false ∧
    exampleCrop.isBlockContainedY signOutside.getPos = false ∧
    markersOf (findMarkers (exampleConfig [signOutside])) "homes" "world" = [] := by
  decide

end mapcrafter
